import Mathlib

/-!
Shallow embedding of the granular fuzzy recommendation system
(`src/recommender.py` together with the genre catalog of `src/config.py`).

Python dictionaries mapping genre labels to float membership strengths are
modelled as association lists `List (String × ℚ)` looked up with a default of
`0` (= `dict.get(genre, 0.0)`).  Python floats are modelled as rationals; the
single transcendental operation the code performs, `np.sqrt` inside
`fuzzy_cosine`, is modelled as an explicit function argument `s : ℚ → ℚ`
supplied to every definition that transitively needs it, so theorems quantify
over the square-root routine and concrete evaluations instantiate it with
`Rat.sqrt` (exact on perfect squares, which is all the concrete inputs use).
Fallible Python code (`KeyError` on a missing weights key, `ZeroDivisionError`
in the MMR genre-overlap ratio) is modelled with `Option`, `none` being the
raised exception.
-/

namespace FuzzyRec

/-- A fuzzy profile: Python dict from genre label to membership strength. -/
abbrev Profile := List (String × ℚ)

/-- `d.get(g, 0.0)` on a Python dict modelled as an association list. -/
def profileGet : Profile → String → ℚ
  | [], _ => 0
  | (k, v) :: rest, g => if k = g then v else profileGet rest g

/-- `weights[g]` on a Python dict: `none` models the raised `KeyError`. -/
def weightGet : List (String × ℚ) → String → Option ℚ
  | [], _ => none
  | (k, v) :: rest, g => if k = g then some v else weightGet rest g

namespace Config

/-- `Config.GENRES` from `src/config.py` (19 MovieLens genre labels; the
first, `unknown`, is the non-scored sentinel). -/
def GENRES : List String :=
  ["unknown", "Action", "Adventure", "Animation",
   "Children\x27s", "Comedy", "Crime", "Documentary",
   "Drama", "Fantasy", "Film-Noir", "Horror",
   "Musical", "Mystery", "Romance", "Sci-Fi",
   "Thriller", "War", "Western"]

end Config

/-! ### FuzzySimilarity (`src/recommender.py`, lines 8-83) -/

/-- One iteration of the accumulation loop of `fuzzy_jaccard`: the pair is
(intersection, union); the sentinel genre is skipped. -/
def jacStep (u m : Profile) (acc : ℚ × ℚ) (g : String) : ℚ × ℚ :=
  if g = "unknown" then acc
  else (acc.1 + min (profileGet u g) (profileGet m g),
        acc.2 + max (profileGet u g) (profileGet m g))

/-- `FuzzySimilarity.fuzzy_jaccard`. -/
def fuzzy_jaccard (u m : Profile) : ℚ :=
  let p := Config.GENRES.foldl (jacStep u m) (0, 0)
  if p.2 > 0 then p.1 / p.2 else 0

/-- One iteration of the accumulation loop of `fuzzy_cosine`: the triple is
(dot_product, user_norm², movie_norm²). -/
def cosStep (u m : Profile) (acc : ℚ × ℚ × ℚ) (g : String) : ℚ × ℚ × ℚ :=
  if g = "unknown" then acc
  else (acc.1 + profileGet u g * profileGet m g,
        acc.2.1 + profileGet u g ^ 2,
        acc.2.2 + profileGet m g ^ 2)

/-- `FuzzySimilarity.fuzzy_cosine`; `s` models `np.sqrt`. -/
def fuzzy_cosine (s : ℚ → ℚ) (u m : Profile) : ℚ :=
  let p := Config.GENRES.foldl (cosStep u m) (0, 0, 0)
  let user_norm := s p.2.1
  let movie_norm := s p.2.2
  if user_norm > 0 ∧ movie_norm > 0 then p.1 / (user_norm * movie_norm) else 0

/-- One iteration of the accumulation loop of `fuzzy_dice`: the pair is
(intersection, sum_profiles). -/
def diceStep (u m : Profile) (acc : ℚ × ℚ) (g : String) : ℚ × ℚ :=
  if g = "unknown" then acc
  else (acc.1 + min (profileGet u g) (profileGet m g),
        acc.2 + (profileGet u g + profileGet m g))

/-- `FuzzySimilarity.fuzzy_dice`. -/
def fuzzy_dice (u m : Profile) : ℚ :=
  let p := Config.GENRES.foldl (diceStep u m) (0, 0)
  if p.2 > 0 then 2 * p.1 / p.2 else 0

/-- The default weights dict `{'jaccard': 0.4, 'cosine': 0.4, 'dice': 0.2}`. -/
def defaultWeights : List (String × ℚ) :=
  [("jaccard", 2/5), ("cosine", 2/5), ("dice", 1/5)]

/-- `FuzzySimilarity.hybrid_similarity`; `weights = none` models the Python
default argument `weights=None`, and a `none` result models the `KeyError`
raised when a required key is absent from a caller-supplied dict. -/
def hybrid_similarity (s : ℚ → ℚ) (u m : Profile)
    (weights : Option (List (String × ℚ))) : Option ℚ :=
  let w := weights.getD defaultWeights
  let jaccard := fuzzy_jaccard u m
  let cosine := fuzzy_cosine s u m
  let dice := fuzzy_dice u m
  match weightGet w "jaccard", weightGet w "cosine", weightGet w "dice" with
  | some wj, some wc, some wd => some (wj * jaccard + wc * cosine + wd * dice)
  | _, _, _ => none

/-! ### FuzzyRecommender (`src/recommender.py`, lines 85-191) -/

/-- One row of the fuzzified movie dataframe: identifier, title, and the
genre-strength columns present in the row. -/
structure Movie where
  movie_id : Nat
  title : String
  vals : List (String × ℚ)
deriving DecidableEq

/-- The `user_profile` dict `{'user_id': ..., 'profile': ...}`. -/
structure UserProfile where
  user_id : Nat
  profile : Profile

/-- One entry of the recommendation list built at lines 115-120. -/
structure Recommendation where
  movie_id : Nat
  title : String
  similarity_score : ℚ
  genres : List (String × ℚ)
deriving DecidableEq

instance : Inhabited Recommendation := ⟨⟨0, "", 0, []⟩⟩

/-- The `movie_profile` dict built at lines 107-110: genre columns of the row,
in `Config.GENRES` order, sentinel excluded. -/
def movieProfileOf (m : Movie) : Profile :=
  (Config.GENRES.filter
    (fun g => decide (g ≠ "unknown") && (m.vals.map Prod.fst).contains g)).map
    (fun g => (g, profileGet m.vals g))

/-- Stable descending insertion by strength, matching Python
`sorted(..., key=lambda x: x[1], reverse=True)` (equal strengths keep their
original relative order). -/
def insertByStrength (x : String × ℚ) : List (String × ℚ) → List (String × ℚ)
  | [] => [x]
  | y :: ys => if y.2 > x.2 then y :: insertByStrength x ys else x :: y :: ys

/-- Stable descending sort by strength. -/
def sortByStrength : List (String × ℚ) → List (String × ℚ)
  | [] => []
  | x :: xs => insertByStrength x (sortByStrength xs)

/-- `FuzzyRecommender._get_top_movie_genres` (lines 127-130) with `n = 3`. -/
def get_top_movie_genres (movie_profile : Profile) : List (String × ℚ) :=
  ((sortByStrength movie_profile).take 3).filter (fun gs => gs.2 > 1/10)

/-- Scoring of one unrated movie (loop body, lines 105-120).  The default
weights always contain the three required keys, so `hybrid_similarity` with
`weights = none` never returns `none` and the `getD 0` is never exercised
(`hybrid_similarity_none_eq`). -/
def scoreMovie (s : ℚ → ℚ) (prefs : Profile) (m : Movie) : Recommendation :=
  let movie_profile := movieProfileOf m
  { movie_id := m.movie_id
    title := m.title
    similarity_score := (hybrid_similarity s prefs movie_profile none).getD 0
    genres := get_top_movie_genres movie_profile }

/-- The unrated movies (line 101): catalog rows whose id is not excluded. -/
def availablePool (movies : List Movie) (rated : List Nat) : List Movie :=
  movies.filter (fun m => !(rated.contains m.movie_id))

/-- The scored candidate list in catalog iteration order (lines 105-120). -/
def scoredCandidates (s : ℚ → ℚ) (user : UserProfile) (movies : List Movie)
    (rated : List Nat) : List Recommendation :=
  (availablePool movies rated).map (scoreMovie s user.profile)

/-- Stable descending insertion by similarity score, matching
`recommendations.sort(key=lambda x: x['similarity_score'], reverse=True)`. -/
def insertRec (r : Recommendation) : List Recommendation → List Recommendation
  | [] => [r]
  | x :: xs =>
    if x.similarity_score > r.similarity_score then x :: insertRec r xs
    else r :: x :: xs

/-- Stable descending sort by similarity score (line 123). -/
def sortRecs : List Recommendation → List Recommendation
  | [] => []
  | x :: xs => insertRec x (sortRecs xs)

/-- Python slice `l[:n]`, including the negative-index semantics
(`l[:-k]` drops the last `k` elements). -/
def pyTake (n : Int) (l : List α) : List α :=
  if 0 ≤ n then l.take n.toNat else l.take ((l.length : Int) + n).toNat

/-- `FuzzyRecommender.generate_recommendations` (lines 93-125).  `top_n` is an
`Int` because Python's slice accepts (and the code does not reject) negative
values. -/
def generate_recommendations (s : ℚ → ℚ) (user : UserProfile)
    (movies : List Movie) (rated : List Nat) (top_n : Int) :
    List Recommendation :=
  pyTake top_n (sortRecs (scoredCandidates s user movies rated))

/-! ### MMR diversification (`generate_diverse_recommendations`, lines 144-191) -/

/-- The genre label set `set([g for g, s in rec['genres']])`. -/
def labelSet (r : Recommendation) : Finset String :=
  (r.genres.map Prod.fst).toFinset

/-- The genre-overlap ratio of lines 173-176 for one (selected, candidate)
pair: `overlap / max(len(selected_genres), len(candidate_genres))`.  When both
label sets are empty the Python expression raises `ZeroDivisionError`,
modelled as `none`. -/
def pairSim (sel cand : Recommendation) : Option ℚ :=
  if max (labelSet sel).card (labelSet cand).card = 0 then none
  else some ((((labelSet sel) ∩ (labelSet cand)).card : ℚ) /
    ((max (labelSet sel).card (labelSet cand).card : ℕ) : ℚ))

/-- The `max_similarity` accumulation over already-selected items
(lines 170-177), starting from `0`. -/
def maxSim (diverse : List Recommendation) (cand : Recommendation) : Option ℚ :=
  diverse.foldl
    (fun acc sel => acc.bind fun a => (pairSim sel cand).map (fun q => max a q))
    (some 0)

/-- The MMR scores `relevance - diversity_factor * max_similarity` of all
remaining candidates, in pool order (lines 165-180). -/
def mmrScores (df : ℚ) (diverse : List Recommendation) :
    List Recommendation → Option (List ℚ)
  | [] => some []
  | c :: cs =>
    match maxSim diverse c, mmrScores df diverse cs with
    | some m, some rest => some ((c.similarity_score - df * m) :: rest)
    | _, _ => none

/-- The `best_score/best_index` scan of lines 162-184: strictly greater
scores update the running best, which starts at `-1` with no index. -/
def bestIdxAux : List ℚ → ℚ → Option Nat → Nat → Option Nat
  | [], _, bi, _ => bi
  | q :: qs, best, bi, i =>
    if q > best then bestIdxAux qs q (some i) (i + 1)
    else bestIdxAux qs best bi (i + 1)

/-- Index selected by one pass of the MMR loop body; `none` models
`best_index == -1`, i.e. the `break`. -/
def bestIndex (l : List ℚ) : Option Nat := bestIdxAux l (-1) none 0

/-- The `while` loop of lines 161-189.  `fuel` is an upper bound on the number
of iterations still possible; every call site passes `remaining.length`, which
suffices because each iteration removes one element from the pool, so the
artificial `none` in the fuel-exhausted case with work left is unreachable
(`mmrLoop_length` is proved only under `remaining.length ≤ fuel`). -/
def mmrLoop (df : ℚ) (top_n : Int) :
    Nat → List Recommendation → List Recommendation → Option (List Recommendation)
  | 0, diverse, remaining =>
    if (diverse.length : Int) < top_n ∧ remaining ≠ [] then none else some diverse
  | fuel + 1, diverse, remaining =>
    if (diverse.length : Int) < top_n ∧ remaining ≠ [] then
      match mmrScores df diverse remaining with
      | none => none
      | some scores =>
        match bestIndex scores with
        | none => some diverse
        | some i =>
          mmrLoop df top_n fuel (diverse ++ [remaining.getD i default])
            (remaining.eraseIdx i)
    else some diverse

/-- `FuzzyRecommender.generate_diverse_recommendations` (lines 144-191): the
candidate pool is `generate_recommendations(..., top_n=50)`; the most relevant
candidate seeds the output; the MMR loop fills the rest; the result is sliced
to `top_n`.  A `none` result models the uncaught `ZeroDivisionError` of the
diversity ratio. -/
def generate_diverse_recommendations (s : ℚ → ℚ) (user : UserProfile)
    (movies : List Movie) (rated : List Nat) (top_n : Int)
    (diversity_factor : ℚ) : Option (List Recommendation) :=
  match generate_recommendations s user movies rated 50 with
  | [] => some []
  | r :: rest =>
    (mmrLoop diversity_factor top_n rest.length [r] rest).map (pyTake top_n)

/-- Modelled from the spec (§4.4): the variant of
`generate_diverse_recommendations` that the specification describes, whose
candidate pool is requested with size `5 × top_n` instead of the fixed `50`
the code uses (the cap at catalog size is the scorer's final slice in both
variants).  Used only to compare the code against the spec's words. -/
def generate_diverse_recommendations_specPool (s : ℚ → ℚ) (user : UserProfile)
    (movies : List Movie) (rated : List Nat) (top_n : Int)
    (diversity_factor : ℚ) : Option (List Recommendation) :=
  match generate_recommendations s user movies rated (5 * top_n) with
  | [] => some []
  | r :: rest =>
    (mmrLoop diversity_factor top_n rest.length [r] rest).map (pyTake top_n)

/-! ### Data-model predicates (spec §3: membership strengths are in `[0,1]`;
only nonnegativity is ever needed below). -/

/-- All strengths stored in a profile (or movie row) are nonnegative. -/
def NonnegVals (l : List (String × ℚ)) : Prop := ∀ x ∈ l, 0 ≤ x.2

instance (l : List (String × ℚ)) : Decidable (NonnegVals l) :=
  inferInstanceAs (Decidable (∀ x ∈ l, 0 ≤ x.2))

/-- The scored genres: `Config.GENRES` without the sentinel. -/
def scoredGenres : List String := Config.GENRES.filter (fun g => !(g == "unknown"))

/-- Sum of min(Aᵢ, Bᵢ) over the scored genres (the spec numerator in §4.1). -/
def jaccardNumer (u m : Profile) : ℚ :=
  (scoredGenres.map (fun g => min (profileGet u g) (profileGet m g))).sum

/-- Sum of max(Aᵢ, Bᵢ) over the scored genres (the spec denominator in §4.1). -/
def jaccardDenom (u m : Profile) : ℚ :=
  (scoredGenres.map (fun g => max (profileGet u g) (profileGet m g))).sum

/-! ### Basic lemmas -/

theorem profileGet_nonneg {p : Profile} (hp : NonnegVals p) (g : String) :
    0 ≤ profileGet p g := by
  induction p with
  | nil => simp [profileGet]
  | cons x rest ih =>
    obtain ⟨k, v⟩ := x
    simp only [profileGet]
    split
    · exact hp (k, v) (by simp)
    · exact ih (fun y hy => hp y (List.mem_cons_of_mem _ hy))

theorem jacStep_foldl (u m : Profile) :
    ∀ (l : List String) (a b : ℚ),
      l.foldl (jacStep u m) (a, b) =
        (a + ((l.filter (fun g => !(g == "unknown"))).map
            (fun g => min (profileGet u g) (profileGet m g))).sum,
         b + ((l.filter (fun g => !(g == "unknown"))).map
            (fun g => max (profileGet u g) (profileGet m g))).sum) := by
  intro l
  induction l with
  | nil => simp
  | cons g gs ih =>
    intro a b
    by_cases hg : g = "unknown"
    · simp [jacStep, hg, ih]
    · simp [jacStep, hg, ih, add_assoc]

theorem fuzzy_jaccard_eq (u m : Profile) :
    fuzzy_jaccard u m =
      if jaccardDenom u m > 0 then jaccardNumer u m / jaccardDenom u m else 0 := by
  unfold fuzzy_jaccard
  rw [jacStep_foldl]
  simp [jaccardNumer, jaccardDenom, scoredGenres]

theorem jaccardDenom_nonneg {u m : Profile} (hu : NonnegVals u) (hm : NonnegVals m) :
    0 ≤ jaccardDenom u m := by
  apply List.sum_nonneg
  intro x hx
  simp only [jaccardDenom, List.mem_map] at hx
  obtain ⟨g, _, rfl⟩ := hx
  exact le_max_of_le_left (profileGet_nonneg hu g)

theorem jaccardNumer_nonneg {u m : Profile} (hu : NonnegVals u) (hm : NonnegVals m) :
    0 ≤ jaccardNumer u m := by
  apply List.sum_nonneg
  intro x hx
  simp only [jaccardNumer, List.mem_map] at hx
  obtain ⟨g, _, rfl⟩ := hx
  exact le_min (profileGet_nonneg hu g) (profileGet_nonneg hm g)

theorem fuzzy_jaccard_nonneg {u m : Profile} (hu : NonnegVals u) (hm : NonnegVals m) :
    0 ≤ fuzzy_jaccard u m := by
  rw [fuzzy_jaccard_eq]
  split
  · exact div_nonneg (jaccardNumer_nonneg hu hm) (le_of_lt (by assumption))
  · exact le_refl 0

/-! ### Symmetry of the similarity measures -/

theorem jacStep_comm (u m : Profile) : jacStep u m = jacStep m u := by
  funext acc g
  simp [jacStep, min_comm, max_comm]

theorem fuzzy_jaccard_comm (u m : Profile) : fuzzy_jaccard u m = fuzzy_jaccard m u := by
  unfold fuzzy_jaccard
  rw [jacStep_comm]

theorem diceStep_comm (u m : Profile) : diceStep u m = diceStep m u := by
  funext acc g
  simp only [diceStep]
  rw [min_comm, add_comm (profileGet u g) (profileGet m g)]

theorem fuzzy_dice_comm (u m : Profile) : fuzzy_dice u m = fuzzy_dice m u := by
  unfold fuzzy_dice
  rw [diceStep_comm]

theorem cosStep_foldl_swap (u m : Profile) :
    ∀ (l : List String) (a b c : ℚ),
      l.foldl (cosStep m u) (a, b, c) =
        ((l.foldl (cosStep u m) (a, c, b)).1,
         (l.foldl (cosStep u m) (a, c, b)).2.2,
         (l.foldl (cosStep u m) (a, c, b)).2.1) := by
  intro l
  induction l with
  | nil => simp
  | cons g gs ih =>
    intro a b c
    by_cases hg : g = "unknown"
    · simp only [List.foldl_cons, cosStep, hg, if_pos]
      exact ih a b c
    · simp only [List.foldl_cons, cosStep, hg, if_neg, not_false_iff]
      rw [mul_comm (profileGet m g) (profileGet u g)]
      exact ih _ _ _

theorem cosine_if_comm (x a b : ℚ) :
    (if a > 0 ∧ b > 0 then x / (a * b) else 0) =
      (if b > 0 ∧ a > 0 then x / (b * a) else 0) := by
  by_cases h1 : a > 0 <;> by_cases h2 : b > 0 <;> simp [h1, h2, mul_comm]

theorem fuzzy_cosine_comm (s : ℚ → ℚ) (u m : Profile) :
    fuzzy_cosine s u m = fuzzy_cosine s m u := by
  simp only [fuzzy_cosine]
  rw [cosStep_foldl_swap]
  exact cosine_if_comm _ _ _

theorem hybrid_similarity_comm (s : ℚ → ℚ) (u m : Profile)
    (w : Option (List (String × ℚ))) :
    hybrid_similarity s u m w = hybrid_similarity s m u w := by
  unfold hybrid_similarity
  rw [fuzzy_jaccard_comm, fuzzy_cosine_comm, fuzzy_dice_comm]

/-! ### The stable descending sort of the candidate list -/

/-- The descending order on scores used by the sort. -/
def scoreGE (a b : Recommendation) : Prop :=
  b.similarity_score ≤ a.similarity_score

theorem insertRec_perm (r : Recommendation) :
    ∀ l : List Recommendation, List.Perm (insertRec r l) (r :: l) := by
  intro l
  induction l with
  | nil => simp [insertRec]
  | cons x xs ih =>
    simp only [insertRec]
    split
    · exact (ih.cons x).trans (List.Perm.swap r x xs)
    · exact List.Perm.refl _

theorem sortRecs_perm : ∀ l : List Recommendation, List.Perm (sortRecs l) l := by
  intro l
  induction l with
  | nil => simp [sortRecs]
  | cons x xs ih => exact (insertRec_perm x (sortRecs xs)).trans (ih.cons x)

theorem sortRecs_length (l : List Recommendation) :
    (sortRecs l).length = l.length :=
  (sortRecs_perm l).length_eq

theorem insertRec_pairwise {l : List Recommendation} (r : Recommendation)
    (hl : l.Pairwise scoreGE) : (insertRec r l).Pairwise scoreGE := by
  induction l with
  | nil => simp [insertRec, List.Pairwise]
  | cons x xs ih =>
    rw [List.pairwise_cons] at hl
    simp only [insertRec]
    split
    · rename_i hgt
      rw [List.pairwise_cons]
      refine ⟨?_, ih hl.2⟩
      intro b hb
      rcases List.mem_cons.mp ((insertRec_perm r xs).mem_iff.mp hb) with hb | hb
      · subst hb; exact le_of_lt hgt
      · exact hl.1 b hb
    · rename_i hng
      rw [List.pairwise_cons]
      refine ⟨?_, List.pairwise_cons.mpr hl⟩
      intro b hb
      rcases List.mem_cons.mp hb with hb | hb
      · subst hb; exact le_of_not_lt hng
      · exact le_trans (hl.1 b hb) (le_of_not_lt hng)

theorem sortRecs_pairwise : ∀ l : List Recommendation, (sortRecs l).Pairwise scoreGE := by
  intro l
  induction l with
  | nil => simp [sortRecs, List.Pairwise]
  | cons x xs ih => exact insertRec_pairwise x ih

theorem insertRec_filter_eq {r : Recommendation} {q : ℚ}
    (h : r.similarity_score = q) (l : List Recommendation) :
    (insertRec r l).filter (fun x => decide (x.similarity_score = q)) =
      r :: l.filter (fun x => decide (x.similarity_score = q)) := by
  induction l with
  | nil => simp [insertRec, List.filter, h]
  | cons x xs ih =>
    simp only [insertRec]
    split
    · rename_i hgt
      have hx : ¬ x.similarity_score = q := by
        intro hxq
        rw [hxq, ← h] at hgt
        exact lt_irrefl _ (h ▸ hgt)
      simp only [List.filter_cons, hx, decide_eq_true_eq, if_neg, ih]
      simp [hx]
    · simp [List.filter_cons, h]

theorem insertRec_filter_ne {r : Recommendation} {q : ℚ}
    (h : ¬ r.similarity_score = q) (l : List Recommendation) :
    (insertRec r l).filter (fun x => decide (x.similarity_score = q)) =
      l.filter (fun x => decide (x.similarity_score = q)) := by
  induction l with
  | nil => simp [insertRec, List.filter, h]
  | cons x xs ih =>
    simp only [insertRec]
    split
    · by_cases hx : x.similarity_score = q <;> simp [List.filter_cons, hx, ih]
    · simp [List.filter_cons, h]

/-- Stability of the candidate sort: the candidates of any fixed score keep
their original relative order. -/
theorem sortRecs_filter_score (l : List Recommendation) (q : ℚ) :
    (sortRecs l).filter (fun x => decide (x.similarity_score = q)) =
      l.filter (fun x => decide (x.similarity_score = q)) := by
  induction l with
  | nil => simp [sortRecs]
  | cons x xs ih =>
    simp only [sortRecs]
    by_cases hx : x.similarity_score = q
    · rw [insertRec_filter_eq hx, ih]
      simp [List.filter_cons, hx]
    · rw [insertRec_filter_ne hx, ih]
      simp [List.filter_cons, hx]

/-! ### Structure of `generate_recommendations` -/

theorem pyTake_eq_take (n : Int) (l : List α) :
    pyTake n l = l.take (if 0 ≤ n then n.toNat else ((l.length : Int) + n).toNat) := by
  unfold pyTake
  split <;> rfl

theorem pyTake_length (n : Int) (l : List α) :
    (pyTake n l).length =
      if 0 ≤ n then min n.toNat l.length else ((l.length : Int) + n).toNat := by
  rw [pyTake_eq_take, List.length_take]
  split
  · rfl
  · rename_i hn
    have hle : ((l.length : Int) + n).toNat ≤ l.length := by
      omega
    omega

theorem pyTake_sublist (n : Int) (l : List α) : (pyTake n l).Sublist l := by
  rw [pyTake_eq_take]
  exact List.take_sublist _ _

theorem generate_recommendations_length (s : ℚ → ℚ) (user : UserProfile)
    (movies : List Movie) (rated : List Nat) (n : Int) :
    (generate_recommendations s user movies rated n).length =
      if 0 ≤ n then min n.toNat (availablePool movies rated).length
      else (((availablePool movies rated).length : Int) + n).toNat := by
  unfold generate_recommendations
  rw [pyTake_length, sortRecs_length]
  simp [scoredCandidates]

theorem mem_generate_recommendations {s : ℚ → ℚ} {user : UserProfile}
    {movies : List Movie} {rated : List Nat} {n : Int} {r : Recommendation}
    (h : r ∈ generate_recommendations s user movies rated n) :
    ∃ m ∈ availablePool movies rated, r = scoreMovie s user.profile m := by
  unfold generate_recommendations at h
  have h1 : r ∈ sortRecs (scoredCandidates s user movies rated) :=
    (pyTake_sublist _ _).mem h
  have h2 : r ∈ scoredCandidates s user movies rated :=
    (sortRecs_perm _).mem_iff.mp h1
  simp only [scoredCandidates, List.mem_map] at h2
  obtain ⟨m, hm, rfl⟩ := h2
  exact ⟨m, hm, rfl⟩

/-! ### Nonnegativity of the similarity scores (for valid fuzzy profiles) -/

theorem cosStep_foldl_dot_nonneg {u m : Profile} (hu : NonnegVals u)
    (hm : NonnegVals m) :
    ∀ (l : List String) (a b c : ℚ), 0 ≤ a →
      0 ≤ (l.foldl (cosStep u m) (a, b, c)).1 := by
  intro l
  induction l with
  | nil => intro a b c ha; simpa using ha
  | cons g gs ih =>
    intro a b c ha
    simp only [List.foldl_cons, cosStep]
    split
    · exact ih a b c ha
    · exact ih _ _ _
        (add_nonneg ha (mul_nonneg (profileGet_nonneg hu g) (profileGet_nonneg hm g)))

theorem fuzzy_cosine_nonneg (s : ℚ → ℚ) {u m : Profile} (hu : NonnegVals u)
    (hm : NonnegVals m) : 0 ≤ fuzzy_cosine s u m := by
  simp only [fuzzy_cosine]
  split
  · rename_i h
    exact div_nonneg (cosStep_foldl_dot_nonneg hu hm _ 0 0 0 le_rfl)
      (le_of_lt (mul_pos h.1 h.2))
  · exact le_refl 0

theorem diceStep_foldl_inter_nonneg {u m : Profile} (hu : NonnegVals u)
    (hm : NonnegVals m) :
    ∀ (l : List String) (a b : ℚ), 0 ≤ a →
      0 ≤ (l.foldl (diceStep u m) (a, b)).1 := by
  intro l
  induction l with
  | nil => intro a b ha; simpa using ha
  | cons g gs ih =>
    intro a b ha
    simp only [List.foldl_cons, diceStep]
    split
    · exact ih a b ha
    · exact ih _ _
        (add_nonneg ha (le_min (profileGet_nonneg hu g) (profileGet_nonneg hm g)))

theorem fuzzy_dice_nonneg {u m : Profile} (hu : NonnegVals u)
    (hm : NonnegVals m) : 0 ≤ fuzzy_dice u m := by
  simp only [fuzzy_dice]
  split
  · rename_i h
    have hi := diceStep_foldl_inter_nonneg hu hm Config.GENRES 0 0 le_rfl
    have h2 : (0:ℚ) ≤ 2 := by norm_num
    exact div_nonneg (by linarith) (le_of_lt h)
  · exact le_refl 0

theorem hybrid_similarity_none_eq (s : ℚ → ℚ) (u m : Profile) :
    hybrid_similarity s u m none =
      some (2/5 * fuzzy_jaccard u m + 2/5 * fuzzy_cosine s u m +
        1/5 * fuzzy_dice u m) := rfl

theorem movieProfileOf_nonneg {m : Movie} (hm : NonnegVals m.vals) :
    NonnegVals (movieProfileOf m) := by
  intro x hx
  simp only [movieProfileOf, List.mem_map] at hx
  obtain ⟨g, _, rfl⟩ := hx
  exact profileGet_nonneg hm g

theorem scoreMovie_score_nonneg (s : ℚ → ℚ) {prefs : Profile} {m : Movie}
    (hp : NonnegVals prefs) (hm : NonnegVals m.vals) :
    0 ≤ (scoreMovie s prefs m).similarity_score := by
  have hmp := movieProfileOf_nonneg hm
  simp only [scoreMovie, hybrid_similarity_none_eq, Option.getD_some]
  have h1 := fuzzy_jaccard_nonneg hp hmp
  have h2 := fuzzy_cosine_nonneg s hp hmp
  have h3 := fuzzy_dice_nonneg hp hmp
  linarith

theorem generate_recommendations_score_nonneg {s : ℚ → ℚ} {user : UserProfile}
    {movies : List Movie} {rated : List Nat} {n : Int}
    (hu : NonnegVals user.profile) (hm : ∀ m ∈ movies, NonnegVals m.vals) :
    ∀ r ∈ generate_recommendations s user movies rated n,
      0 ≤ r.similarity_score := by
  intro r hr
  obtain ⟨m, hmem, rfl⟩ := mem_generate_recommendations hr
  have : m ∈ movies := List.mem_of_mem_filter hmem
  exact scoreMovie_score_nonneg s hu (hm m this)

/-! ### Lemmas about the MMR loop ingredients -/

theorem pairSim_bounds {sel cand : Recommendation} {q : ℚ}
    (h : pairSim sel cand = some q) : 0 ≤ q ∧ q ≤ 1 := by
  unfold pairSim at h
  split at h
  · exact absurd h (by simp)
  · rename_i hd
    have hdpos : 0 < max (labelSet sel).card (labelSet cand).card :=
      Nat.pos_of_ne_zero hd
    have hin : ((labelSet sel) ∩ (labelSet cand)).card ≤
        max (labelSet sel).card (labelSet cand).card :=
      le_trans (Finset.card_le_card Finset.inter_subset_left) (le_max_left _ _)
    simp only [Option.some_inj] at h
    subst h
    constructor
    · positivity
    · rw [div_le_one (by exact_mod_cast hdpos)]
      exact_mod_cast hin

theorem pairSim_some (sel : Recommendation) {cand : Recommendation}
    (h : cand.genres ≠ []) : ∃ q, pairSim sel cand = some q := by
  obtain ⟨x, hx⟩ := List.exists_mem_of_ne_nil cand.genres h
  have hmem : x.1 ∈ labelSet cand := by
    unfold labelSet
    rw [List.mem_toFinset, List.mem_map]
    exact ⟨x, hx, rfl⟩
  have hcard : (labelSet cand).card ≠ 0 := Finset.card_ne_zero_of_mem hmem
  have hd : max (labelSet sel).card (labelSet cand).card ≠ 0 := by
    intro hmax
    have hle := le_max_right (labelSet sel).card (labelSet cand).card
    rw [hmax] at hle
    exact hcard (Nat.le_zero.mp hle)
  exact ⟨_, by unfold pairSim; rw [if_neg hd]⟩

theorem maxSim_step_none (cand : Recommendation) (d : List Recommendation) :
    d.foldl (fun acc sel => acc.bind fun a =>
      (pairSim sel cand).map (fun q => max a q)) none = none := by
  induction d with
  | nil => rfl
  | cons sel rest ih =>
    simp only [List.foldl_cons, Option.none_bind]
    exact ih

theorem maxSim_foldl_bounds {cand : Recommendation} :
    ∀ (d : List Recommendation) (a q : ℚ), 0 ≤ a → a ≤ 1 →
      d.foldl (fun acc sel => acc.bind fun a =>
        (pairSim sel cand).map (fun q => max a q)) (some a) = some q →
      0 ≤ q ∧ q ≤ 1 := by
  intro d
  induction d with
  | nil =>
    intro a q ha ha1 h
    simp only [List.foldl_nil, Option.some_inj] at h
    exact h ▸ ⟨ha, ha1⟩
  | cons sel rest ih =>
    intro a q ha ha1 h
    simp only [List.foldl_cons] at h
    rcases hp : pairSim sel cand with _ | v
    · rw [hp] at h
      simp only [Option.some_bind, Option.map_none'] at h
      rw [maxSim_step_none] at h
      exact absurd h (by simp)
    · rw [hp] at h
      simp only [Option.some_bind, Option.map_some'] at h
      have hv := pairSim_bounds hp
      exact ih (max a v) q (le_max_of_le_left ha) (max_le ha1 hv.2) h

theorem maxSim_bounds {d : List Recommendation} {cand : Recommendation} {q : ℚ}
    (h : maxSim d cand = some q) : 0 ≤ q ∧ q ≤ 1 :=
  maxSim_foldl_bounds d 0 q le_rfl zero_le_one h

theorem maxSim_some {cand : Recommendation} (h : cand.genres ≠ [])
    (d : List Recommendation) : ∃ q, maxSim d cand = some q := by
  unfold maxSim
  suffices hgen : ∀ (dd : List Recommendation) (a : ℚ), ∃ q,
      dd.foldl (fun acc sel => acc.bind fun a =>
        (pairSim sel cand).map (fun q => max a q)) (some a) = some q by
    exact hgen d 0
  intro dd
  induction dd with
  | nil => intro a; exact ⟨a, rfl⟩
  | cons sel rest ih =>
    intro a
    obtain ⟨v, hv⟩ := pairSim_some sel h
    simp only [List.foldl_cons, hv, Option.some_bind, Option.map_some']
    exact ih (max a v)

theorem mmrScores_length {df : ℚ} {d rem : List Recommendation} {qs : List ℚ}
    (h : mmrScores df d rem = some qs) : qs.length = rem.length := by
  induction rem generalizing qs with
  | nil => simp only [mmrScores, Option.some_inj] at h; simp [← h]
  | cons c cs ih =>
    simp only [mmrScores] at h
    rcases h1 : maxSim d c with _ | m <;> rw [h1] at h
    · exact absurd h (by simp)
    · rcases h2 : mmrScores df d cs with _ | rest <;> rw [h2] at h
      · exact absurd h (by simp)
      · simp only [Option.some_inj] at h
        subst h
        simp [ih h2]

theorem mmrScores_gt {df : ℚ} (hdf : df < 1) {d rem : List Recommendation}
    {qs : List ℚ} (hrem : ∀ c ∈ rem, 0 ≤ c.similarity_score)
    (h : mmrScores df d rem = some qs) : ∀ q ∈ qs, -1 < q := by
  induction rem generalizing qs with
  | nil => simp only [mmrScores, Option.some_inj] at h; simp [← h]
  | cons c cs ih =>
    simp only [mmrScores] at h
    rcases h1 : maxSim d c with _ | m <;> rw [h1] at h
    · exact absurd h (by simp)
    · rcases h2 : mmrScores df d cs with _ | rest <;> rw [h2] at h
      · exact absurd h (by simp)
      · simp only [Option.some_inj] at h
        subst h
        intro q hq
        rcases List.mem_cons.mp hq with hq | hq
        · subst hq
          have hs := hrem c (by simp)
          have hm := maxSim_bounds h1
          have hdm : df * m < 1 := by
            rcases le_or_lt 0 df with h0 | h0
            · calc df * m ≤ df * 1 := by
                    exact mul_le_mul_of_nonneg_left hm.2 h0
                _ = df := mul_one df
                _ < 1 := hdf
            · calc df * m ≤ 0 := mul_nonpos_of_nonpos_of_nonneg (le_of_lt h0) hm.1
                _ < 1 := one_pos
          linarith
        · exact ih (fun x hx => hrem x (List.mem_cons_of_mem _ hx)) h2 q hq

theorem mmrScores_some {df : ℚ} {d rem : List Recommendation}
    (hrem : ∀ c ∈ rem, c.genres ≠ []) : ∃ qs, mmrScores df d rem = some qs := by
  induction rem with
  | nil => exact ⟨[], rfl⟩
  | cons c cs ih =>
    obtain ⟨m, hm⟩ := maxSim_some (hrem c (by simp)) d
    obtain ⟨rest, hrest⟩ := ih (fun x hx => hrem x (List.mem_cons_of_mem _ hx))
    refine ⟨(c.similarity_score - df * m) :: rest, ?_⟩
    simp only [mmrScores, hm, hrest]

/-! ### The best-index scan -/

theorem bestIdxAux_lt :
    ∀ (l : List ℚ) (best : ℚ) (bi : Option Nat) (k : Nat),
      (∀ j, bi = some j → j < k) →
      ∀ j, bestIdxAux l best bi k = some j → j < k + l.length := by
  intro l
  induction l with
  | nil =>
    intro best bi k hk j hj
    simp only [bestIdxAux] at hj
    exact lt_of_lt_of_le (hk j hj) (Nat.le_add_right k 0)
  | cons q qs ih =>
    intro best bi k hk j hj
    simp only [bestIdxAux] at hj
    split at hj
    · have := ih q (some k) (k + 1)
        (fun j' hj' => by cases hj'; omega) j hj
      simpa [Nat.add_assoc, Nat.add_comm 1 qs.length] using this
    · have := ih best bi (k + 1)
        (fun j' hj' => lt_trans (hk j' hj') (Nat.lt_succ_self k)) j hj
      simpa [Nat.add_assoc, Nat.add_comm 1 qs.length] using this

theorem bestIdxAux_isSome :
    ∀ (l : List ℚ) (best : ℚ) (bi : Option Nat) (k : Nat),
      ((∃ q ∈ l, best < q) ∨ bi.isSome) → (bestIdxAux l best bi k).isSome := by
  intro l
  induction l with
  | nil =>
    intro best bi k h
    simp only [bestIdxAux]
    rcases h with ⟨q, hq, _⟩ | h
    · exact absurd hq (List.not_mem_nil q)
    · exact h
  | cons q qs ih =>
    intro best bi k h
    simp only [bestIdxAux]
    split
    · exact ih q (some k) (k + 1) (Or.inr rfl)
    · rename_i hng
      apply ih best bi (k + 1)
      rcases h with ⟨q', hq', hgt⟩ | h
      · rcases List.mem_cons.mp hq' with hq' | hq'
        · subst hq'; exact absurd hgt hng
        · exact Or.inl ⟨q', hq', hgt⟩
      · exact Or.inr h

theorem bestIndex_lt {l : List ℚ} {i : Nat} (h : bestIndex l = some i) :
    i < l.length := by
  have := bestIdxAux_lt l (-1) none 0 (fun j hj => by cases hj) i h
  simpa using this

theorem bestIndex_isSome {l : List ℚ} (h : ∃ q ∈ l, -1 < q) :
    (bestIndex l).isSome :=
  bestIdxAux_isSome l (-1) none 0 (Or.inl h)

/-! ### The MMR while loop -/

theorem mmrLoop_length {df : ℚ} (hdf : df < 1) (N : Int) :
    ∀ (fuel : Nat) (remaining diverse out : List Recommendation),
      remaining.length ≤ fuel →
      (∀ c ∈ remaining, 0 ≤ c.similarity_score) →
      mmrLoop df N fuel diverse remaining = some out →
      out.length = if (diverse.length : Int) < N
        then min N.toNat (diverse.length + remaining.length)
        else diverse.length := by
  intro fuel
  induction fuel with
  | zero =>
    intro remaining diverse out hfuel hrem h
    have hnil : remaining = [] := List.eq_nil_of_length_eq_zero (Nat.le_zero.mp hfuel)
    subst hnil
    simp only [mmrLoop, ne_eq, not_true_eq_false, and_false, if_false] at h
    injection h with h
    subst h
    split
    · rename_i hlt
      simp only [List.length_nil, Nat.add_zero]
      omega
    · rfl
  | succ fuel ih =>
    intro remaining diverse out hfuel hrem h
    simp only [mmrLoop] at h
    by_cases hcond : (diverse.length : Int) < N ∧ remaining ≠ []
    · rw [if_pos hcond] at h
      split at h
      · exact absurd h (by simp)
      · rename_i scores hsc
        have hlen := mmrScores_length hsc
        have hgt := mmrScores_gt hdf hrem hsc
        have hscne : scores ≠ [] := by
          intro hx
          apply hcond.2
          have hx0 : scores.length = 0 := by rw [hx]; rfl
          rw [hx0] at hlen
          exact List.eq_nil_of_length_eq_zero hlen.symm
        obtain ⟨q0, hq0⟩ := List.exists_mem_of_ne_nil scores hscne
        have hsome := bestIndex_isSome ⟨q0, hq0, hgt q0 hq0⟩
        split at h
        · rename_i hbi
          rw [hbi] at hsome
          exact absurd hsome (by simp)
        · rename_i i hi
          have hil : i < remaining.length := by
            have := bestIndex_lt hi
            omega
          have herase : (remaining.eraseIdx i).length = remaining.length - 1 := by
            rw [List.length_eraseIdx]
            simp [hil]
          have hrem' : ∀ c ∈ remaining.eraseIdx i, 0 ≤ c.similarity_score :=
            fun c hc => hrem c ((List.eraseIdx_sublist remaining i).mem hc)
          have hrec := ih (remaining.eraseIdx i) (diverse ++ [remaining.getD i default])
            out (by omega) hrem' h
          rw [herase] at hrec
          simp only [List.length_append, List.length_cons, List.length_nil] at hrec
          have hrpos : 1 ≤ remaining.length := by
            rcases remaining with _ | _
            · exact absurd rfl hcond.2
            · simp
          rw [if_pos hcond.1]
          split at hrec <;> rename_i h2 <;> omega
    · rw [if_neg hcond] at h
      injection h with h
      subst h
      rcases Decidable.not_and_iff_or_not.mp hcond with h1 | h2
      · rw [if_neg h1]
      · have hnil : remaining = [] := Decidable.not_not.mp h2
        subst hnil
        split
        · simp only [List.length_nil, Nat.add_zero]
          omega
        · rfl

theorem mmrLoop_some (df : ℚ) (N : Int) :
    ∀ (fuel : Nat) (remaining diverse : List Recommendation),
      remaining.length ≤ fuel →
      (∀ c ∈ remaining, 0 ≤ c.similarity_score) →
      (∀ c ∈ remaining, c.genres ≠ []) →
      ∃ out, mmrLoop df N fuel diverse remaining = some out := by
  intro fuel
  induction fuel with
  | zero =>
    intro remaining diverse hfuel hrem hgen
    have hnil : remaining = [] := List.eq_nil_of_length_eq_zero (Nat.le_zero.mp hfuel)
    subst hnil
    exact ⟨diverse, by simp [mmrLoop]⟩
  | succ fuel ih =>
    intro remaining diverse hfuel hrem hgen
    simp only [mmrLoop]
    by_cases hcond : (diverse.length : Int) < N ∧ remaining ≠ []
    · rw [if_pos hcond]
      obtain ⟨scores, hsc⟩ := @mmrScores_some df diverse remaining hgen
      simp only [hsc]
      rcases hbi : bestIndex scores with _ | i
      · exact ⟨diverse, rfl⟩
      · have hil : i < remaining.length := by
          have := bestIndex_lt hbi
          have := mmrScores_length hsc
          omega
        have herase : (remaining.eraseIdx i).length = remaining.length - 1 := by
          rw [List.length_eraseIdx]
          simp [hil]
        exact ih (remaining.eraseIdx i) (diverse ++ [remaining.getD i default])
          (by omega)
          (fun c hc => hrem c ((List.eraseIdx_sublist remaining i).mem hc))
          (fun c hc => hgen c ((List.eraseIdx_sublist remaining i).mem hc))
    · rw [if_neg hcond]
      exact ⟨diverse, rfl⟩

theorem mmrLoop_subperm (df : ℚ) (N : Int) :
    ∀ (fuel : Nat) (remaining diverse out : List Recommendation),
      mmrLoop df N fuel diverse remaining = some out →
      out.Subperm (diverse ++ remaining) := by
  intro fuel
  induction fuel with
  | zero =>
    intro remaining diverse out h
    simp only [mmrLoop] at h
    split at h
    · exact absurd h (by simp)
    · injection h with h
      subst h
      exact ((List.sublist_append_left diverse remaining).subperm)
  | succ fuel ih =>
    intro remaining diverse out h
    simp only [mmrLoop] at h
    split at h
    · rename_i hcond
      split at h
      · exact absurd h (by simp)
      · rename_i scores hsc
        split at h
        · injection h with h
          subst h
          exact ((List.sublist_append_left diverse remaining).subperm)
        · rename_i i hbi
          have hil : i < remaining.length := by
            have := bestIndex_lt hbi
            have := mmrScores_length hsc
            omega
          have hperm : List.Perm
              ((diverse ++ [remaining.getD i default]) ++ remaining.eraseIdx i)
              (diverse ++ remaining) := by
            rw [List.append_assoc]
            apply List.Perm.append_left
            have hdecomp : remaining = remaining.take i ++
                remaining.getD i default :: remaining.drop (i + 1) := by
              conv_lhs => rw [← List.take_append_drop i remaining]
              rw [List.drop_eq_getElem_cons hil, List.getD_eq_getElem _ _ hil]
            rw [List.eraseIdx_eq_take_drop_succ, List.singleton_append]
            conv_rhs => rw [hdecomp]
            exact List.perm_middle.symm
          exact ((ih _ _ _ h).trans hperm.subperm)
    · injection h with h
      subst h
      exact ((List.sublist_append_left diverse remaining).subperm)

/-! ### Output size of the diversified pipeline -/

theorem generate_diverse_length_aux (s : ℚ → ℚ) (user : UserProfile)
    (movies : List Movie) (rated : List Nat) (N : Int) (hN : 0 ≤ N)
    (df : ℚ) (hdf : df < 1)
    (hscores : ∀ r ∈ generate_recommendations s user movies rated 50,
      0 ≤ r.similarity_score)
    (out : List Recommendation)
    (h : generate_diverse_recommendations s user movies rated N df = some out) :
    out.length = min N.toNat (min 50 (availablePool movies rated).length) := by
  have hplen := generate_recommendations_length s user movies rated 50
  rw [if_pos (by norm_num)] at hplen
  have h50 : (50 : Int).toNat = 50 := rfl
  rw [h50] at hplen
  unfold generate_diverse_recommendations at h
  rcases hpool : generate_recommendations s user movies rated 50 with _ | ⟨r, rest⟩
  · rw [hpool] at hplen
    simp only [hpool] at h
    have hout : out = [] := by
      injection h with h
      exact h.symm
    subst hout
    simp only [List.length_nil] at hplen ⊢
    omega
  · rw [hpool] at hplen
    simp only [hpool] at h
    rcases hlo : mmrLoop df N rest.length [r] rest with _ | lo <;> rw [hlo] at h
    · exact absurd h (by simp)
    · simp only [Option.map_some', Option.some_inj] at h
      have hrem : ∀ c ∈ rest, 0 ≤ c.similarity_score := fun c hc =>
        hscores c (by rw [hpool]; exact List.mem_cons_of_mem r hc)
      have hlolen := mmrLoop_length hdf N rest.length rest [r] lo le_rfl hrem hlo
      simp only [List.length_cons, List.length_singleton, List.length_nil]
        at hlolen hplen
      subst h
      rw [pyTake_length, if_pos hN]
      split at hlolen <;> omega

/-! ### Concrete inputs used by witnesses and counterexamples -/

def user1 : UserProfile := ⟨1, [("Action", 1)]⟩

def userEmpty : UserProfile := ⟨1, []⟩

def cat1 : List Movie := [⟨1, "A", [("Action", 1)]⟩]

def cat2 : List Movie := [⟨1, "A", [("Action", 1)]⟩, ⟨2, "B", [("Action", 1)]⟩]

/-- Two catalog movies whose only genre column has strength `0`, so their
top-genre lists are empty. -/
def catZ : List Movie := [⟨1, "A", [("Action", 0)]⟩, ⟨2, "B", [("Action", 0)]⟩]

/-- Eleven pure-Action movies followed by one mixed Action/Comedy movie. -/
def cat12 : List Movie :=
  ((List.range 11).map (fun i => ⟨i + 1, "M", [("Action", 1)]⟩)) ++
    [⟨12, "X", [("Action", 4/5), ("Comedy", 3/5)]⟩]

/-- Fifty-one pure-Action movies. -/
def cat51 : List Movie := (List.range 51).map (fun i => ⟨i + 1, "M", [("Action", 1)]⟩)

/-! ### Claim theorems -/

/-- C1 (amended): for nonnegative fuzzy profiles and `top_n = N ≥ 0`, whenever
`generate_diverse_recommendations` (default `diversity_factor = 0.3`) returns
a list at all, that list has length `min N (min 50 P)` where `P` is the number
of catalog movies left after excluding already-rated ones — the candidate pool
is capped at the fixed 50 requested at recommender.py line 148, so the claimed
`min N P` is wrong for `P > 50`. -/
theorem C1_diverse_output_size (s : ℚ → ℚ) (user : UserProfile)
    (movies : List Movie) (rated : List Nat) (N : Int) (hN : 0 ≤ N)
    (hu : NonnegVals user.profile) (hm : ∀ m ∈ movies, NonnegVals m.vals)
    (out : List Recommendation)
    (h : generate_diverse_recommendations s user movies rated N (3/10) = some out) :
    out.length = min N.toNat (min 50 (availablePool movies rated).length) :=
  generate_diverse_length_aux s user movies rated N hN (3/10) (by norm_num)
    (generate_recommendations_score_nonneg hu hm) out h

set_option maxRecDepth 1000000

/-- Witness for C1: one Action movie, `top_n = 1`; the returned list has
length `min 1 (min 50 1) = 1`. -/
theorem C1_witness :
    generate_diverse_recommendations Rat.sqrt user1 cat1 [] 1 (3/10) =
      some [⟨1, "A", 1, [("Action", 1)]⟩] ∧
    ([(⟨1, "A", 1, [("Action", 1)]⟩ : Recommendation)]).length =
      min ((1 : Int)).toNat (min 50 (availablePool cat1 []).length) :=
  ⟨by with_unfolding_all decide,
   C1_diverse_output_size Rat.sqrt user1 cat1 [] 1 (by decide)
     (by decide) (by decide) _ (by with_unfolding_all decide)⟩

/-- Counterexample to C1 as stated: with 51 available movies and
`top_n = 51`, the output has 50 entries, not `min(51, 51) = 51`, because the
candidate pool is truncated to 50 before the MMR loop runs. -/
theorem C1_counterexample :
    (generate_diverse_recommendations Rat.sqrt user1 cat51 [] 51 (3/10)).map
      List.length = some 50 ∧
    min ((51 : Int)).toNat (availablePool cat51 []).length = 51 := by
  have hP : (availablePool cat51 []).length = 51 := by
    simp [availablePool, cat51]
  refine ⟨?_, by rw [hP]; decide⟩
  have hmp : ∀ (idv : Nat) (t : String),
      movieProfileOf ⟨idv, t, [("Action", 1)]⟩ = [("Action", 1)] := by
    intro idv t
    with_unfolding_all rfl
  have hsim : (hybrid_similarity Rat.sqrt user1.profile
      [("Action", (1:ℚ))] none).getD 0 = 1 := by
    with_unfolding_all decide
  have htop : get_top_movie_genres [("Action", (1:ℚ))] = [("Action", 1)] := by
    with_unfolding_all decide
  have hscore : ∀ (idv : Nat) (t : String),
      scoreMovie Rat.sqrt user1.profile ⟨idv, t, [("Action", 1)]⟩ =
        ⟨idv, t, 1, [("Action", 1)]⟩ := by
    intro idv t
    simp only [scoreMovie, hmp, hsim, htop]
  have hcat : ∀ m ∈ cat51, ∃ idv t, m = (⟨idv, t, [("Action", 1)]⟩ : Movie) := by
    intro m hm
    simp only [cat51, List.mem_map, List.mem_range] at hm
    obtain ⟨i, _, rfl⟩ := hm
    exact ⟨i + 1, "M", rfl⟩
  have hpool : ∀ r ∈ generate_recommendations Rat.sqrt user1 cat51 [] 50,
      0 ≤ r.similarity_score ∧ r.genres ≠ [] := by
    intro r hr
    obtain ⟨m, hmem, rfl⟩ := mem_generate_recommendations hr
    obtain ⟨idv, t, rfl⟩ := hcat m (List.mem_of_mem_filter hmem)
    rw [hscore idv t]
    exact ⟨by norm_num, by simp⟩
  have hlen50 : (generate_recommendations Rat.sqrt user1 cat51 [] 50).length = 50 := by
    rw [generate_recommendations_length, if_pos (by norm_num), hP]
    decide
  rcases hpl : generate_recommendations Rat.sqrt user1 cat51 [] 50 with _ | ⟨r, rest⟩
  · rw [hpl] at hlen50
    exact absurd hlen50 (by simp)
  · rw [hpl] at hlen50
    simp only [List.length_cons] at hlen50
    have hrest_s : ∀ c ∈ rest, 0 ≤ c.similarity_score := fun c hc =>
      (hpool c (by rw [hpl]; exact List.mem_cons_of_mem r hc)).1
    have hrest_g : ∀ c ∈ rest, c.genres ≠ [] := fun c hc =>
      (hpool c (by rw [hpl]; exact List.mem_cons_of_mem r hc)).2
    obtain ⟨lo, hlo⟩ :=
      mmrLoop_some (3/10) 51 rest.length rest [r] le_rfl hrest_s hrest_g
    have hlolen := mmrLoop_length (by norm_num : (3/10 : ℚ) < 1) 51
      rest.length rest [r] lo le_rfl hrest_s hlo
    simp only [List.length_singleton, List.length_cons, List.length_nil] at hlolen
    rw [if_pos (by norm_num)] at hlolen
    unfold generate_diverse_recommendations
    simp only [hpl]
    rw [hlo]
    simp only [Option.map_some', Option.some_inj]
    rw [pyTake_length, if_pos (by norm_num)]
    omega

/-- C2 (amended): the candidate pool of `generate_diverse_recommendations` is
requested with the fixed size 50 hard-coded at recommender.py line 148, not
with `5 × top_n`; the two coincide exactly at the default `top_n = 10`, where
the code agrees with the spec-described variant for every catalog, user,
exclusion set and diversity factor. -/
theorem C2_pool_is_fixed_50 (s : ℚ → ℚ) (user : UserProfile)
    (movies : List Movie) (rated : List Nat) (df : ℚ) :
    generate_diverse_recommendations s user movies rated 10 df =
      generate_diverse_recommendations_specPool s user movies rated 10 df := by
  unfold generate_diverse_recommendations generate_diverse_recommendations_specPool
  norm_num

/-- Counterexample to C2 as stated: with 12 available movies, `top_n = 2` and
`diversity_factor = 1`, the code (pool of 50, i.e. all 12 candidates) selects
the mixed Action/Comedy movie 12 as its second pick, while the spec's
`5 × top_n = 10` pool cannot see movie 12 and picks movie 2 instead. -/
theorem C2_counterexample :
    generate_diverse_recommendations Rat.sqrt user1 cat12 [] 2 1 ≠
      generate_diverse_recommendations_specPool Rat.sqrt user1 cat12 [] 2 1 := by
  with_unfolding_all decide

/-- C3 (code evaluated at the failing input): when the top-genre lists of both
a selected item and a remaining candidate are empty, the diversity-penalty
expression `overlap / max(len, len)` divides by zero and the whole call fails
(`none`, modelling the uncaught `ZeroDivisionError`) instead of treating the
penalty as 0 as the spec prescribes.  Both movies of `catZ` have genre
strength 0, hence empty top-genre lists, as the second conjunct shows. -/
theorem C3_zero_division :
    generate_diverse_recommendations Rat.sqrt user1 catZ [] 2 (3/10) = none ∧
    (∀ r ∈ generate_recommendations Rat.sqrt user1 catZ [] 50, r.genres = []) ∧
    (availablePool catZ []).length = 2 := by
  refine ⟨?_, ?_, by decide⟩ <;> with_unfolding_all decide

/-- C4 (amended): for `diversity_factor < 1` (and candidates with the
nonnegative scores valid profiles produce), a successful MMR loop that stops
with fewer than `top_n` selections has exhausted the pool.  At
`diversity_factor = 1` exactly, a candidate of relevance 0 with full genre
overlap reaches `mmr_score = -1`, which fails the strict `> best_score = -1`
test, so the loop can abstain with a non-empty pool (`C4_counterexample`). -/
theorem C4_no_abstention (df : ℚ) (hdf : df < 1) (N : Int) (fuel : Nat)
    (diverse remaining out : List Recommendation)
    (hfuel : remaining.length ≤ fuel)
    (hrem : ∀ c ∈ remaining, 0 ≤ c.similarity_score)
    (h : mmrLoop df N fuel diverse remaining = some out)
    (hshort : (out.length : Int) < N) :
    out.length = diverse.length + remaining.length := by
  have hlen := mmrLoop_length hdf N fuel remaining diverse out hfuel hrem h
  split at hlen <;> omega

/-- Witness for C4: a two-candidate pool at `diversity_factor = 0.3`,
`top_n = 5`; the loop stops short of 5 only because both candidates were
consumed. -/
theorem C4_witness :
    ([⟨1, "A", 1, [("Action", 1)]⟩, ⟨2, "B", 1, [("Comedy", 1)]⟩] :
      List Recommendation).length =
      ([(⟨1, "A", 1, [("Action", 1)]⟩ : Recommendation)]).length +
      ([(⟨2, "B", 1, [("Comedy", 1)]⟩ : Recommendation)]).length :=
  C4_no_abstention (3/10) (by norm_num) 5 1
    [⟨1, "A", 1, [("Action", 1)]⟩] [⟨2, "B", 1, [("Comedy", 1)]⟩]
    [⟨1, "A", 1, [("Action", 1)]⟩, ⟨2, "B", 1, [("Comedy", 1)]⟩]
    (by decide) (by decide) (by with_unfolding_all decide) (by decide)

/-- Counterexample to C4 as stated: with an all-zero user profile (so every
relevance is 0), two identical-genre movies and `diversity_factor = 1` (which
the claim includes via "diversity_factor in [0,1]"), the MMR loop abstains
and returns a single item although `top_n = 2` and a candidate remains. -/
theorem C4_counterexample :
    generate_diverse_recommendations Rat.sqrt userEmpty cat2 [] 2 1 =
      some [⟨1, "A", 0, [("Action", 1)]⟩] ∧
    (availablePool cat2 []).length = 2 := by
  constructor
  · with_unfolding_all decide
  · decide

theorem weightGet_append_ne {k g : String} (hne : k ≠ g)
    (w : List (String × ℚ)) (v : ℚ) :
    weightGet (w ++ [(k, v)]) g = weightGet w g := by
  induction w with
  | nil => simp [weightGet, hne]
  | cons x rest ih =>
    obtain ⟨k', v'⟩ := x
    simp only [List.cons_append, weightGet]
    split
    · rfl
    · exact ih

/-- C5 (amended): the recommendation entry points perform no input
validation.  A call with `top_n < 0` runs the full scoring pass and silently
returns a partial list — Python's negative slice drops the last `|top_n|`
scored candidates — and a weights mapping with an unrecognized extra key is
silently accepted, the extra key ignored (only a missing required key raises
`KeyError`). -/
theorem C5_no_input_validation :
    (∀ (s : ℚ → ℚ) (user : UserProfile) (movies : List Movie)
      (rated : List Nat) (N : Int), N < 0 →
      (generate_recommendations s user movies rated N).length =
        (((availablePool movies rated).length : Int) + N).toNat) ∧
    (∀ (s : ℚ → ℚ) (u m : Profile) (w : List (String × ℚ)) (k : String) (v : ℚ),
      k ≠ "jaccard" → k ≠ "cosine" → k ≠ "dice" →
      hybrid_similarity s u m (some (w ++ [(k, v)])) =
        hybrid_similarity s u m (some w)) := by
  constructor
  · intro s user movies rated N hN
    rw [generate_recommendations_length, if_neg (by omega)]
  · intro s u m w k v h1 h2 h3
    unfold hybrid_similarity
    simp only [Option.getD_some]
    rw [weightGet_append_ne h1, weightGet_append_ne h2, weightGet_append_ne h3]

/-- Witness for C5: `top_n = -1` on a two-movie catalog returns `2 - 1 = 1`
candidate, and a weights dict carrying the extra key `"bogus"` scores exactly
like the default dict. -/
theorem C5_witness :
    (generate_recommendations Rat.sqrt user1 cat2 [] (-1)).length =
      (((availablePool cat2 []).length : Int) + (-1)).toNat ∧
    hybrid_similarity Rat.sqrt user1.profile [("Action", (1:ℚ))]
      (some (defaultWeights ++ [("bogus", 7)])) =
      hybrid_similarity Rat.sqrt user1.profile [("Action", (1:ℚ))]
        (some defaultWeights) :=
  ⟨C5_no_input_validation.1 Rat.sqrt user1 cat2 [] (-1) (by decide),
   C5_no_input_validation.2 Rat.sqrt user1.profile [("Action", 1)]
     defaultWeights "bogus" 7 (by decide) (by decide) (by decide)⟩

/-- Counterexample to C5 as stated: the invalid invocation `top_n = -1` is not
rejected — it produces the valid-looking single-item list below after scoring
both movies — and an unrecognized weights key is not rejected either: the
hybrid score is still computed (`some 1`). -/
theorem C5_counterexample :
    generate_recommendations Rat.sqrt user1 cat2 [] (-1) =
      [⟨1, "A", 1, [("Action", 1)]⟩] ∧
    hybrid_similarity Rat.sqrt user1.profile [("Action", (1:ℚ))]
      (some (defaultWeights ++ [("bogus", 7)])) = some 1 := by
  constructor <;> with_unfolding_all decide

/-- C6: `fuzzy_jaccard` equals Σ min(Aᵢ,Bᵢ) / Σ max(Aᵢ,Bᵢ) over the genre set
excluding the sentinel (`scoredGenres`), with missing genres read as 0 by
`profileGet`, and returns exactly 0 when the denominator is 0. -/
theorem C6_jaccard_formula (u m : Profile) (hu : NonnegVals u)
    (hm : NonnegVals m) :
    fuzzy_jaccard u m =
      if jaccardDenom u m = 0 then 0
      else jaccardNumer u m / jaccardDenom u m := by
  rw [fuzzy_jaccard_eq]
  have hd := jaccardDenom_nonneg hu hm
  rcases eq_or_lt_of_le hd with he | hlt
  · rw [if_neg (by rw [← he]; exact lt_irrefl 0), if_pos he.symm]
  · rw [if_pos hlt, if_neg (ne_of_gt hlt)]

/-- Witness for C6 at two concrete single-genre profiles. -/
theorem C6_witness :
    fuzzy_jaccard [("Action", (1:ℚ)/2)] [("Comedy", (1:ℚ)/3)] =
      if jaccardDenom [("Action", (1:ℚ)/2)] [("Comedy", (1:ℚ)/3)] = 0 then 0
      else jaccardNumer [("Action", (1:ℚ)/2)] [("Comedy", (1:ℚ)/3)] /
        jaccardDenom [("Action", (1:ℚ)/2)] [("Comedy", (1:ℚ)/3)] :=
  C6_jaccard_formula _ _ (by with_unfolding_all decide)
    (by with_unfolding_all decide)

/-- C7: `generate_recommendations` is deterministic (a pure function of its
inputs), its output is sorted by similarity score descending, and the sort is
stable: for every score value, the candidates carrying it appear in the same
order as in the catalog-order scored list. -/
theorem C7_determinism_stable_sort (s : ℚ → ℚ) (user : UserProfile)
    (movies : List Movie) (rated : List Nat) (N : Int) :
    generate_recommendations s user movies rated N =
      generate_recommendations s user movies rated N ∧
    (generate_recommendations s user movies rated N).Pairwise scoreGE ∧
    ∀ q : ℚ,
      (sortRecs (scoredCandidates s user movies rated)).filter
          (fun x => decide (x.similarity_score = q)) =
        (scoredCandidates s user movies rated).filter
          (fun x => decide (x.similarity_score = q)) := by
  refine ⟨rfl, ?_, fun q => sortRecs_filter_score _ q⟩
  have hs := pyTake_sublist N (sortRecs (scoredCandidates s user movies rated))
  have hp := sortRecs_pairwise (scoredCandidates s user movies rated)
  unfold generate_recommendations
  exact hp.sublist hs

/-- C8: all three fuzzy similarity measures and the hybrid combination are
symmetric in the two profiles, for every square-root routine and weights
mapping. -/
theorem C8_symmetry (s : ℚ → ℚ) (u m : Profile)
    (w : Option (List (String × ℚ))) :
    fuzzy_jaccard u m = fuzzy_jaccard m u ∧
    fuzzy_cosine s u m = fuzzy_cosine s m u ∧
    fuzzy_dice u m = fuzzy_dice m u ∧
    hybrid_similarity s u m w = hybrid_similarity s m u w :=
  ⟨fuzzy_jaccard_comm u m, fuzzy_cosine_comm s u m, fuzzy_dice_comm u m,
   hybrid_similarity_comm s u m w⟩

/-- C9 (amended): `fuzzy_jaccard(A,A) = 1` for every nonnegative fuzzy
profile that is non-zero on at least one genre *other than the sentinel
`unknown`* — a profile non-zero only on `unknown` yields 0, not 1
(`C9_counterexample`), because the similarity loop skips the sentinel. -/
theorem C9_identity (A : Profile) (hA : NonnegVals A) (g : String)
    (hg : g ∈ Config.GENRES) (hgs : g ≠ "unknown")
    (hnz : profileGet A g ≠ 0) : fuzzy_jaccard A A = 1 := by
  have hnm : jaccardNumer A A = jaccardDenom A A := by
    unfold jaccardNumer jaccardDenom
    simp only [min_self, max_self]
  have hgpos : 0 < profileGet A g :=
    lt_of_le_of_ne (profileGet_nonneg hA g) (Ne.symm hnz)
  have hmem : profileGet A g ∈
      (scoredGenres.map (fun x => max (profileGet A x) (profileGet A x))) := by
    rw [List.mem_map]
    refine ⟨g, ?_, max_self _⟩
    unfold scoredGenres
    rw [List.mem_filter]
    exact ⟨hg, by simp [hgs]⟩
  have hle : profileGet A g ≤ jaccardDenom A A := by
    unfold jaccardDenom
    apply List.single_le_sum _ _ hmem
    intro x hx
    rw [List.mem_map] at hx
    obtain ⟨y, _, rfl⟩ := hx
    exact le_max_of_le_left (profileGet_nonneg hA y)
  have hpos : 0 < jaccardDenom A A := lt_of_lt_of_le hgpos hle
  rw [fuzzy_jaccard_eq, if_pos hpos, hnm, div_self (ne_of_gt hpos)]

/-- Witness for C9 at a concrete profile non-zero on `Action`. -/
theorem C9_witness :
    fuzzy_jaccard [("Action", (1:ℚ)/2)] [("Action", (1:ℚ)/2)] = 1 :=
  C9_identity [("Action", (1:ℚ)/2)] (by with_unfolding_all decide) "Action"
    (by decide) (by decide) (by with_unfolding_all decide)

/-- Counterexample to C9 as stated: the profile `{unknown: 1/2}` is a valid
fuzzy profile (memberships in `[0,1]`) that is non-zero on at least one genre
of `Config.GENRES`, yet its self-Jaccard is 0, not 1, because `unknown` is
the skipped sentinel. -/
theorem C9_counterexample :
    fuzzy_jaccard [("unknown", (1:ℚ)/2)] [("unknown", (1:ℚ)/2)] = 0 ∧
    "unknown" ∈ Config.GENRES ∧
    profileGet [("unknown", (1:ℚ)/2)] "unknown" ≠ 0 ∧
    NonnegVals [("unknown", (1:ℚ)/2)] ∧
    (∀ x ∈ ([("unknown", (1:ℚ)/2)] : Profile), x.2 ≤ 1) ∧
    (0 : ℚ) ≠ 1 := by
  refine ⟨?_, ?_, ?_, ?_, ?_, ?_⟩ <;> with_unfolding_all decide

/-- C10: the diversified output never repeats a pool entry: it is a
sub-permutation of the scored candidate pool (each selected candidate is
popped from the remaining pool), so each pool entry occurs in the output at
most as often as in the pool, and a duplicate-free pool yields a
duplicate-free output. -/
theorem C10_no_duplicates (s : ℚ → ℚ) (user : UserProfile)
    (movies : List Movie) (rated : List Nat) (N : Int) (df : ℚ)
    (out : List Recommendation)
    (h : generate_diverse_recommendations s user movies rated N df = some out) :
    (∀ x : Recommendation,
      out.count x ≤ (generate_recommendations s user movies rated 50).count x) ∧
    ((generate_recommendations s user movies rated 50).Nodup → out.Nodup) := by
  have hsp : out.Subperm (generate_recommendations s user movies rated 50) := by
    unfold generate_diverse_recommendations at h
    rcases hpl : generate_recommendations s user movies rated 50 with _ | ⟨r, rest⟩ <;>
      simp only [hpl] at h
    · injection h with h
      subst h
      exact List.nil_subperm
    · rcases hlo : mmrLoop df N rest.length [r] rest with _ | lo <;> rw [hlo] at h
      · exact absurd h (by simp)
      · simp only [Option.map_some', Option.some_inj] at h
        subst h
        have hsub := mmrLoop_subperm df N rest.length rest [r] lo hlo
        rw [List.singleton_append] at hsub
        exact (pyTake_sublist N lo).subperm.trans hsub
  constructor
  · intro x
    exact hsp.count_le x
  · intro hnd
    obtain ⟨l2, hperm, hsub⟩ := hsp
    exact hperm.nodup (hnd.sublist hsub)

/-- Witness for C10 at a concrete two-movie input. -/
theorem C10_witness :
    (∀ x : Recommendation,
      ([⟨1, "A", 1, [("Action", 1)]⟩, ⟨2, "B", 1, [("Action", 1)]⟩] :
        List Recommendation).count x ≤
      (generate_recommendations Rat.sqrt user1 cat2 [] 50).count x) ∧
    ((generate_recommendations Rat.sqrt user1 cat2 [] 50).Nodup →
      ([⟨1, "A", 1, [("Action", 1)]⟩, ⟨2, "B", 1, [("Action", 1)]⟩] :
        List Recommendation).Nodup) :=
  C10_no_duplicates Rat.sqrt user1 cat2 [] 2 (3/10)
    [⟨1, "A", 1, [("Action", 1)]⟩, ⟨2, "B", 1, [("Action", 1)]⟩]
    (by with_unfolding_all decide)

end FuzzyRec
